import Mathlib

/-!
Verification development for PhyloRank (`phylorank/main.py`).

The definitions below shallowly embed the command implementations of
`OptionsParser` in `main.py`: Python dictionaries become functions into
`Option`, exceptions (`sys.exit`, `ZeroDivisionError`) become `Except`
or `Option` results, and dendropy trees become inductive rose trees.
Components that `main.py` calls but whose code is not part of this file
set (biolib's `Taxonomy.validate`, dendropy's Newick label handling, the
RED engine in `rel_dist.py`) are modelled from the specification and are
marked as such in their doc comments.
-/

/-- The fixed rank-prefix schema (d__, p__, c__, o__, f__, g__, s__)
used throughout `main.py` via `Taxonomy.rank_prefixes`. -/
def rankPrefixes : List String := ["d__", "p__", "c__", "o__", "f__", "g__", "s__"]

/-- The rank labels corresponding to `Taxonomy.rank_labels`. -/
def rankLabels : List String :=
  ["domain", "phylum", "class", "order", "family", "genus", "species"]

/-! ### C1: `bl_optimal` precision computation (`main.py` lines 313-324) -/

/-- Embeds `prec = float(correct_taxa) / (correct_taxa + incorrect_taxa)` from
`OptionsParser.bl_optimal`.  Python raises `ZeroDivisionError` when the
denominator is zero; the raised exception is modelled as `none`.  The source
contains no guard and no undefined-placeholder branch. -/
def blOptimalPrec (correct incorrect : Nat) : Option ℚ :=
  if correct + incorrect = 0 then none
  else some ((correct : ℚ) / ((correct : ℚ) + (incorrect : ℚ)))

/-! ### C9: `parse_options` dispatch (`main.py` lines 424-467) -/

/-- Result of `OptionsParser.parse_options`: either a handler is dispatched and
the function returns `0`, or the process exits via `sys.exit()` (which, with no
argument, exits with status `0`). -/
inductive Dispatch where
  | handler (name : String) (ret : Nat)
  | exitCode (code : Nat)
deriving DecidableEq, Repr

/-- The recognized subcommand names, in the order tested by the
`if/elif` chain of `parse_options`. -/
def subcommands : List String :=
  ["outliers", "decorate", "scale", "tree_diff", "pull", "validate", "append",
   "taxon_stats", "robustness_plot", "dist_plot", "rd_ranks", "bl_dist",
   "bl_optimal", "bl_decorate", "bl_table", "rank_res"]

/-- Embeds the `if/elif` dispatch chain of `parse_options`.  An unrecognized
subcommand reaches the `else` branch, which logs an error and calls
`sys.exit()` with no argument, i.e. exit status `0`; a recognized subcommand
dispatches its handler and the function returns `0`. -/
def parseOptions (name : String) : Dispatch :=
  if name = "outliers" then .handler "outliers" 0
  else if name = "decorate" then .handler "decorate" 0
  else if name = "scale" then .handler "scale" 0
  else if name = "tree_diff" then .handler "tree_diff" 0
  else if name = "pull" then .handler "pull" 0
  else if name = "validate" then .handler "validate" 0
  else if name = "append" then .handler "append" 0
  else if name = "taxon_stats" then .handler "taxon_stats" 0
  else if name = "robustness_plot" then .handler "robustness_plot" 0
  else if name = "dist_plot" then .handler "dist_plot" 0
  else if name = "rd_ranks" then .handler "rd_ranks" 0
  else if name = "bl_dist" then .handler "bl_dist" 0
  else if name = "bl_optimal" then .handler "bl_optimal" 0
  else if name = "bl_decorate" then .handler "bl_decorate" 0
  else if name = "bl_table" then .handler "bl_table" 0
  else if name = "rank_res" then .handler "rank_res" 0
  else .exitCode 0

/-! ### C5: `validate` reporting (`main.py` lines 166-189) -/

/-- Modelled from the spec: biolib's `Taxonomy.validate` (an external
collaborator, specified at its interface boundary) checks every taxonomy row
against each error class and enumerates all invalid entries rather than
stopping at the first.  Each error class is represented by a predicate on
rows; the result is the four lists of all offending entries. -/
def validateAll (bad1 bad2 bad3 bad4 : String → Bool) (rows : List String) :
    List String × List String × List String × List String :=
  (rows.filter bad1, rows.filter bad2, rows.filter bad3, rows.filter bad4)

/-- Embeds the summary logic of `OptionsParser.validate`: if the total number
of collected errors is zero it reports that no errors were identified,
otherwise it reports one count per error class. -/
def validateReport (invalidRanks invalidPrefixes invalidSpeciesName
    invalidHierarchies : List String) : List String :=
  if invalidRanks.length + invalidPrefixes.length + invalidSpeciesName.length
      + invalidHierarchies.length = 0 then
    ["No errors identified in taxonomy file."]
  else
    ["Identified " ++ toString invalidRanks.length ++ " incomplete taxonomy strings.",
     "Identified " ++ toString invalidPrefixes.length ++ " rank prefix errors.",
     "Identified " ++ toString invalidSpeciesName.length ++ " invalid species names.",
     "Identified " ++ toString invalidHierarchies.length ++ " taxa with multiple parents."]

/-! ### C7: Newick label round-trip (`main.py` lines 203-206 and 215-218) -/

/-- `preserve_underscores=True` as passed to `dendropy.Tree.get_from_path`
in `OptionsParser.append`. -/
def appendReadPreserveUnderscores : Bool := true

/-- `unquoted_underscores=True` as passed to `tree.write_to_path`
in `OptionsParser.append`. -/
def appendWriteUnquotedUnderscores : Bool := true

/-- Modelled from the spec: dendropy's Newick reader (an external collaborator)
converts underscores in unquoted labels to spaces unless
`preserve_underscores` is set, in which case label text is taken literally. -/
def readLabel (preserveUnderscores : Bool) (raw : String) : String :=
  if preserveUnderscores then raw else raw.replace "_" " "

/-- Modelled from the spec: dendropy's Newick writer (an external collaborator)
quotes labels containing underscores unless `unquoted_underscores` is set, in
which case the label is written verbatim, unquoted and unescaped. -/
def writeLabel (unquotedUnderscores : Bool) (label : String) : String :=
  if unquotedUnderscores then label
  else if label.contains '_' then "'" ++ label ++ "'"
  else label

/-! ## Theorems for claims C1, C9, C5, C7 -/

/-- C1: the claim states that when `correct_taxa + incorrect_taxa = 0` the
`bl_optimal` command reports precision as undefined rather than dividing, and
never produces a divide-by-zero error.  The code divides unconditionally:
on the failing input `correct_taxa = 0, incorrect_taxa = 0` the division
raises `ZeroDivisionError` (modelled as `none`); there is no branch that
reports an undefined placeholder. -/
theorem bl_optimal_prec_div_zero : blOptimalPrec 0 0 = none := rfl

/-- C9: an unrecognized subcommand name reaches the `else` branch of
`parse_options`, which logs an error and calls `sys.exit()` with no argument,
terminating with exit status 0 (success); every recognized subcommand name
dispatches exactly its own handler and `parse_options` returns 0. -/
theorem parse_options_dispatch :
    (∀ s : String, s ∉ subcommands → parseOptions s = .exitCode 0) ∧
    (∀ s : String, s ∈ subcommands → parseOptions s = .handler s 0) := by
  constructor
  · intro s hs
    simp only [subcommands, List.mem_cons, List.not_mem_nil, or_false] at hs
    push_neg at hs
    obtain ⟨h1, h2, h3, h4, h5, h6, h7, h8, h9, h10, h11, h12, h13, h14, h15, h16⟩ := hs
    simp only [parseOptions, h1, h2, h3, h4, h5, h6, h7, h8, h9, h10, h11, h12,
      h13, h14, h15, h16, if_false, ite_false]
  · intro s hs
    fin_cases hs <;> rfl

/-- C9 witness: `parse_options` applied to the unknown subcommand name
`"frobnicate"` exits with status 0, and the recognized name `"append"`
dispatches the append handler and returns 0. -/
theorem parse_options_dispatch_witness :
    parseOptions "frobnicate" = .exitCode 0 ∧ parseOptions "append" = .handler "append" 0 :=
  ⟨parse_options_dispatch.1 "frobnicate" (by decide),
   parse_options_dispatch.2 "append" (by decide)⟩

/-- C5: taxonomy validation accumulates every invalid entry in each of the
four error classes (it never stops at the first offending row), and the
`validate` command reports "no errors" exactly when all four error lists are
empty; otherwise it reports one summarized count per error class. -/
theorem validate_accumulates_and_reports :
    (∀ (b1 b2 b3 b4 : String → Bool) (rows : List String) (r : String),
      r ∈ rows →
      ((b1 r = true → r ∈ (validateAll b1 b2 b3 b4 rows).1) ∧
       (b2 r = true → r ∈ (validateAll b1 b2 b3 b4 rows).2.1) ∧
       (b3 r = true → r ∈ (validateAll b1 b2 b3 b4 rows).2.2.1) ∧
       (b4 r = true → r ∈ (validateAll b1 b2 b3 b4 rows).2.2.2))) ∧
    (∀ e1 e2 e3 e4 : List String,
      (validateReport e1 e2 e3 e4 = ["No errors identified in taxonomy file."] ↔
        e1 = [] ∧ e2 = [] ∧ e3 = [] ∧ e4 = []) ∧
      (¬(e1 = [] ∧ e2 = [] ∧ e3 = [] ∧ e4 = []) →
        validateReport e1 e2 e3 e4 =
          ["Identified " ++ toString e1.length ++ " incomplete taxonomy strings.",
           "Identified " ++ toString e2.length ++ " rank prefix errors.",
           "Identified " ++ toString e3.length ++ " invalid species names.",
           "Identified " ++ toString e4.length ++ " taxa with multiple parents."])) := by
  constructor
  · intro b1 b2 b3 b4 rows r hr
    refine ⟨fun h => ?_, fun h => ?_, fun h => ?_, fun h => ?_⟩ <;>
      simp [validateAll, List.mem_filter, hr, h]
  · intro e1 e2 e3 e4
    have hiff : e1.length + e2.length + e3.length + e4.length = 0 ↔
        e1 = [] ∧ e2 = [] ∧ e3 = [] ∧ e4 = [] := by
      simp [Nat.add_eq_zero, List.length_eq_zero, and_assoc]
    constructor
    · constructor
      · intro h
        by_contra hne
        rw [← hiff] at hne
        rw [validateReport, if_neg hne] at h
        have hlen := congrArg List.length h
        simp at hlen
      · intro h
        rw [validateReport, if_pos (hiff.mpr h)]
    · intro h
      rw [← hiff] at h
      rw [validateReport, if_neg h]

/-- C5 witness: on one row failing the first check, the offending row appears
in the first accumulated error list, and the report shows the four counts;
on four empty error lists the report is "no errors". -/
theorem validate_accumulates_and_reports_witness :
    "r1" ∈ (validateAll (fun _ => true) (fun _ => false) (fun _ => false)
      (fun _ => false) ["r1"]).1 ∧
    validateReport [] [] [] [] = ["No errors identified in taxonomy file."] :=
  ⟨(validate_accumulates_and_reports.1 (fun _ => true) (fun _ => false)
      (fun _ => false) (fun _ => false) ["r1"] "r1" (by decide)).1 rfl,
   (validate_accumulates_and_reports.2 [] [] [] []).1.mpr ⟨rfl, rfl, rfl, rfl⟩⟩

/-- C7: with the flags `append` passes to dendropy (`preserve_underscores=True`
on read, `unquoted_underscores=True` on write), a label is written verbatim
with underscores left unquoted, and reading never converts underscores to
spaces, so label text containing underscores round-trips unchanged. -/
theorem append_underscore_roundtrip :
    ∀ l : String,
      writeLabel appendWriteUnquotedUnderscores l = l ∧
      readLabel appendReadPreserveUnderscores l = l ∧
      readLabel appendReadPreserveUnderscores
        (writeLabel appendWriteUnquotedUnderscores l) = l := by
  intro l
  exact ⟨rfl, rfl, rfl⟩

/-! ### C2, C3, C8: the `append` command (`main.py` lines 191-223) -/

/-- A dendropy tree as loaded by `append`: rooted, each node carrying a label
and a branch length, internal nodes carrying an ordered list of children. -/
inductive DTree where
  | leaf (label : String) (bl : ℚ)
  | node (label : String) (bl : ℚ) (children : List DTree)
deriving Repr

mutual
/-- The labels of the leaves of a tree, in iteration order
(`tree.leaf_node_iter()`). -/
def leafLabels : DTree → List String
  | .leaf l _ => [l]
  | .node _ _ cs => leafLabelsList cs
/-- `leafLabels` on a list of sibling subtrees. -/
def leafLabelsList : List DTree → List String
  | [] => []
  | c :: cs => leafLabels c ++ leafLabelsList cs
end

mutual
/-- Embeds the leaf loop of `OptionsParser.append`: for every leaf, look up
its label in the taxonomy dictionary (`taxonomy.get(n.label, None)`); if the
lookup fails, log an error naming the leaf and call `sys.exit(-1)` (modelled
as `Except.error` carrying the leaf label and the exit argument `-1`);
otherwise rewrite the label to
`n.label + '|' + ';'.join(taxonomy[n.label])`. -/
def appendLeaves (tax : String → Option (List String)) : DTree → Except (String × Int) DTree
  | .leaf l bl =>
    match tax l with
    | none => .error (l, -1)
    | some taxa => .ok (.leaf (l ++ "|" ++ String.intercalate ";" taxa) bl)
  | .node l bl cs =>
    match appendLeavesList tax cs with
    | .error e => .error e
    | .ok cs2 => .ok (.node l bl cs2)
/-- `appendLeaves` on a list of sibling subtrees, stopping at the first
missing leaf as the iteration does. -/
def appendLeavesList (tax : String → Option (List String)) :
    List DTree → Except (String × Int) (List DTree)
  | [] => .ok []
  | c :: cs =>
    match appendLeaves tax c with
    | .error e => .error e
    | .ok c2 =>
      match appendLeavesList tax cs with
      | .error e => .error e
      | .ok cs2 => .ok (c2 :: cs2)
end

mutual
/-- The tree with all leaf labels erased: what remains is the topology, the
branch lengths, and the internal-node labels. -/
def skeleton : DTree → DTree
  | .leaf _ bl => .leaf "" bl
  | .node l bl cs => .node l bl (skeletonList cs)
/-- `skeleton` on a list of sibling subtrees. -/
def skeletonList : List DTree → List DTree
  | [] => []
  | c :: cs => skeleton c :: skeletonList cs
end

/-- The leaf-label rewriting applied by `append` to one leaf with a taxonomy
entry: original label, `'|'`, then the lineage elements joined with `';'`. -/
def appendLabel (tax : String → Option (List String)) (l : String) : String :=
  l ++ "|" ++ String.intercalate ";" ((tax l).getD [])

mutual
/-- If every leaf of a tree has a taxonomy entry, `appendLeaves` succeeds and
rewrites every leaf label to `label|lineage-joined-with-semicolons`. -/
theorem appendLeaves_ok_labels (tax : String → Option (List String)) :
    ∀ t : DTree, (∀ l ∈ leafLabels t, (tax l).isSome = true) →
      ∃ t2, appendLeaves tax t = .ok t2 ∧
        leafLabels t2 = (leafLabels t).map (appendLabel tax)
  | .leaf l bl, h => by
      have hl : (tax l).isSome = true := h l (by simp [leafLabels])
      obtain ⟨taxa, htaxa⟩ := Option.isSome_iff_exists.mp hl
      refine ⟨.leaf (l ++ "|" ++ String.intercalate ";" taxa) bl, ?_, ?_⟩
      · simp [appendLeaves, htaxa]
      · simp [leafLabels, appendLabel, htaxa]
  | .node l bl cs, h => by
      obtain ⟨cs2, hcs2, hlab⟩ :=
        appendLeavesList_ok_labels tax cs (by simpa [leafLabels] using h)
      exact ⟨.node l bl cs2, by simp [appendLeaves, hcs2],
        by simpa [leafLabels] using hlab⟩
/-- List version of `appendLeaves_ok_labels`. -/
theorem appendLeavesList_ok_labels (tax : String → Option (List String)) :
    ∀ cs : List DTree, (∀ l ∈ leafLabelsList cs, (tax l).isSome = true) →
      ∃ cs2, appendLeavesList tax cs = .ok cs2 ∧
        leafLabelsList cs2 = (leafLabelsList cs).map (appendLabel tax)
  | [], _ => ⟨[], rfl, rfl⟩
  | c :: cs, h => by
      obtain ⟨c2, hc2, hlabc⟩ := appendLeaves_ok_labels tax c
        (fun l hl => h l (by simp [leafLabelsList, hl]))
      obtain ⟨cs2, hcs2, hlabcs⟩ := appendLeavesList_ok_labels tax cs
        (fun l hl => h l (by simp [leafLabelsList, hl]))
      exact ⟨c2 :: cs2, by simp [appendLeavesList, hc2, hcs2],
        by simp [leafLabelsList, hlabc, hlabcs]⟩
end

mutual
/-- If `appendLeaves` fails, the error carries the label of a leaf that has
no taxonomy entry, together with the exit argument `-1`. -/
theorem appendLeaves_error_inv (tax : String → Option (List String)) :
    ∀ (t : DTree) (e : String × Int), appendLeaves tax t = .error e →
      ∃ l, l ∈ leafLabels t ∧ tax l = none ∧ e = (l, -1)
  | .leaf l bl, e, h => by
      cases htax : tax l with
      | none =>
          simp [appendLeaves, htax] at h
          exact ⟨l, by simp [leafLabels], htax, h.symm⟩
      | some taxa => simp [appendLeaves, htax] at h
  | .node l bl cs, e, h => by
      cases hcs : appendLeavesList tax cs with
      | error e2 =>
          simp [appendLeaves, hcs] at h
          obtain ⟨l2, hmem, hnone, he⟩ := appendLeavesList_error_inv tax cs e2 hcs
          exact ⟨l2, by simp [leafLabels, hmem], hnone, h ▸ he⟩
      | ok cs2 => simp [appendLeaves, hcs] at h
/-- List version of `appendLeaves_error_inv`. -/
theorem appendLeavesList_error_inv (tax : String → Option (List String)) :
    ∀ (cs : List DTree) (e : String × Int), appendLeavesList tax cs = .error e →
      ∃ l, l ∈ leafLabelsList cs ∧ tax l = none ∧ e = (l, -1)
  | c :: cs, e, h => by
      cases hc : appendLeaves tax c with
      | error e2 =>
          simp [appendLeavesList, hc] at h
          obtain ⟨l2, hmem, hnone, he⟩ := appendLeaves_error_inv tax c e2 hc
          exact ⟨l2, by simp [leafLabelsList, hmem], hnone, h ▸ he⟩
      | ok c2 =>
          cases hcs : appendLeavesList tax cs with
          | error e2 =>
              simp [appendLeavesList, hc, hcs] at h
              obtain ⟨l2, hmem, hnone, he⟩ := appendLeavesList_error_inv tax cs e2 hcs
              exact ⟨l2, by simp [leafLabelsList, hmem], hnone, h ▸ he⟩
          | ok cs2 => simp [appendLeavesList, hc, hcs] at h
end

mutual
/-- If `appendLeaves` succeeds, every leaf had a taxonomy entry. -/
theorem appendLeaves_ok_total (tax : String → Option (List String)) :
    ∀ (t : DTree) (t2 : DTree), appendLeaves tax t = .ok t2 →
      ∀ l ∈ leafLabels t, (tax l).isSome = true
  | .leaf l bl, t2, h => by
      cases htax : tax l with
      | none => simp [appendLeaves, htax] at h
      | some taxa =>
          intro l2 hl2
          simp [leafLabels] at hl2
          simp [hl2, htax]
  | .node l bl cs, t2, h => by
      cases hcs : appendLeavesList tax cs with
      | error e2 => simp [appendLeaves, hcs] at h
      | ok cs2 =>
          intro l2 hl2
          simp [leafLabels] at hl2
          exact appendLeavesList_ok_total tax cs cs2 hcs l2 hl2
/-- List version of `appendLeaves_ok_total`. -/
theorem appendLeavesList_ok_total (tax : String → Option (List String)) :
    ∀ (cs : List DTree) (cs2 : List DTree), appendLeavesList tax cs = .ok cs2 →
      ∀ l ∈ leafLabelsList cs, (tax l).isSome = true
  | [], _, _ => by
      intro l hl
      simp [leafLabelsList] at hl
  | c :: cs, res, h => by
      cases hc : appendLeaves tax c with
      | error e2 => simp [appendLeavesList, hc] at h
      | ok c2 =>
          cases hcs : appendLeavesList tax cs with
          | error e2 => simp [appendLeavesList, hc, hcs] at h
          | ok cs2 =>
              intro l hl
              simp [leafLabelsList] at hl
              rcases hl with hl | hl
              · exact appendLeaves_ok_total tax c c2 hc l hl
              · exact appendLeavesList_ok_total tax cs cs2 hcs l hl
end

mutual
/-- If `appendLeaves` succeeds, the result differs from the input only in
leaf labels: erasing leaf labels yields identical trees. -/
theorem appendLeaves_skeleton (tax : String → Option (List String)) :
    ∀ (t : DTree) (t2 : DTree), appendLeaves tax t = .ok t2 →
      skeleton t2 = skeleton t
  | .leaf l bl, t2, h => by
      cases htax : tax l with
      | none => simp [appendLeaves, htax] at h
      | some taxa =>
          simp [appendLeaves, htax] at h
          rw [← h]
          simp [skeleton]
  | .node l bl cs, t2, h => by
      cases hcs : appendLeavesList tax cs with
      | error e2 => simp [appendLeaves, hcs] at h
      | ok cs2 =>
          simp [appendLeaves, hcs] at h
          rw [← h]
          simp [skeleton, appendLeavesList_skeleton tax cs cs2 hcs]
/-- List version of `appendLeaves_skeleton`. -/
theorem appendLeavesList_skeleton (tax : String → Option (List String)) :
    ∀ (cs : List DTree) (cs2 : List DTree), appendLeavesList tax cs = .ok cs2 →
      skeletonList cs2 = skeletonList cs
  | [], cs2, h => by
      simp [appendLeavesList] at h
      rw [← h]
  | c :: cs, res, h => by
      cases hc : appendLeaves tax c with
      | error e2 => simp [appendLeavesList, hc] at h
      | ok c2 =>
          cases hcs : appendLeavesList tax cs with
          | error e2 => simp [appendLeavesList, hc, hcs] at h
          | ok cs2 =>
              simp [appendLeavesList, hc, hcs] at h
              rw [← h]
              simp [skeletonList, appendLeaves_skeleton tax c c2 hc,
                appendLeavesList_skeleton tax cs cs2 hcs]
end

/-- A concrete 2-leaf tree used for witnesses: `(A:1,B:1)root:0`. -/
def treeAB : DTree := .node "root" 0 [.leaf "A" 1, .leaf "B" 1]

/-- A taxonomy dictionary mapping both leaves of `treeAB`. -/
def taxAB : String → Option (List String) :=
  fun l =>
    if l = "A" then some ["d__Bacteria", "p__Pa"]
    else if l = "B" then some ["d__Bacteria", "p__Pb"]
    else none

/-- A taxonomy dictionary with no entry for leaf `B` of `treeAB`. -/
def taxMissingB : String → Option (List String) :=
  fun l => if l = "A" then some ["d__Bacteria"] else none

/-- The tree produced by `append` on `treeAB` with `taxAB`. -/
def treeABAppended : DTree :=
  .node "root" 0 [.leaf "A|d__Bacteria;p__Pa" 1, .leaf "B|d__Bacteria;p__Pb" 1]

/-- C2: when the taxonomy mapping contains an entry for every leaf, `append`
succeeds and rewrites each leaf label to exactly the original label, then
`'|'`, then the leaf's lineage elements joined with `';'` — the original
label text is fully preserved as a prefix of the new label. -/
theorem append_rewrites_leaf_labels
    (tax : String → Option (List String)) (t : DTree)
    (h : ∀ l ∈ leafLabels t, (tax l).isSome = true) :
    ∃ t2, appendLeaves tax t = .ok t2 ∧
      leafLabels t2 = (leafLabels t).map
        (fun l => l ++ "|" ++ String.intercalate ";" ((tax l).getD [])) :=
  appendLeaves_ok_labels tax t h

/-- C2 witness: on the concrete 2-leaf tree `treeAB` with both leaves mapped
by `taxAB`, `append` produces leaf labels `A|d__Bacteria;p__Pa` and
`B|d__Bacteria;p__Pb`. -/
theorem append_rewrites_leaf_labels_witness :
    (∀ l ∈ leafLabels treeAB, (taxAB l).isSome = true) ∧
    (∃ t2, appendLeaves taxAB treeAB = .ok t2 ∧
      leafLabels t2 = (leafLabels treeAB).map
        (fun l => l ++ "|" ++ String.intercalate ";" ((taxAB l).getD []))) :=
  ⟨by decide, append_rewrites_leaf_labels taxAB treeAB (by decide)⟩

/-- C3: if some leaf of the input tree has no entry in the taxonomy mapping,
`append` logs an error naming such a leaf and terminates via `sys.exit(-1)` —
a non-zero exit argument — and the result is an error, not an output tree, so
the output tree file is never written. -/
theorem append_missing_leaf_exits
    (tax : String → Option (List String)) (t : DTree)
    (h : ∃ l, l ∈ leafLabels t ∧ tax l = none) :
    (∃ l, l ∈ leafLabels t ∧ tax l = none ∧
      appendLeaves tax t = .error (l, -1)) ∧ (-1 : Int) ≠ 0 := by
  refine ⟨?_, by decide⟩
  cases hres : appendLeaves tax t with
  | error e =>
      obtain ⟨l, hmem, hnone, he⟩ := appendLeaves_error_inv tax t e hres
      exact ⟨l, hmem, hnone, by rw [he]⟩
  | ok t2 =>
      obtain ⟨l, hmem, hnone⟩ := h
      have := appendLeaves_ok_total tax t t2 hres l hmem
      simp [hnone] at this

/-- C3 witness: on `treeAB` with `taxMissingB` (leaf `B` unmapped), `append`
fails with an error naming a missing leaf and exit argument `-1`. -/
theorem append_missing_leaf_exits_witness :
    (∃ l, l ∈ leafLabels treeAB ∧ taxMissingB l = none) ∧
    ((∃ l, l ∈ leafLabels treeAB ∧ taxMissingB l = none ∧
      appendLeaves taxMissingB treeAB = .error (l, -1)) ∧ (-1 : Int) ≠ 0) :=
  ⟨⟨"B", by decide, by decide⟩,
   append_missing_leaf_exits taxMissingB treeAB ⟨"B", by decide, by decide⟩⟩

/-- C8: `append` mutates only leaf labels — whenever it succeeds, erasing the
leaf labels of the output tree gives exactly the input tree with its leaf
labels erased, i.e. topology, branch lengths, and internal-node labels are
unchanged. -/
theorem append_mutates_only_leaf_labels
    (tax : String → Option (List String)) (t t2 : DTree)
    (h : appendLeaves tax t = .ok t2) :
    skeleton t2 = skeleton t :=
  appendLeaves_skeleton tax t t2 h

/-- C8 witness: on the concrete run of `append` over `treeAB` with `taxAB`,
the output tree `treeABAppended` has the same skeleton as the input. -/
theorem append_mutates_only_leaf_labels_witness :
    appendLeaves taxAB treeAB = .ok treeABAppended ∧
    skeleton treeABAppended = skeleton treeAB :=
  ⟨rfl, append_mutates_only_leaf_labels taxAB treeAB treeABAppended rfl⟩

/-! ### C6, C10: the `rank_res` command (`main.py` lines 357-422) -/

/-- Embeds Python's substring test `pat in s` as used by
`if rank_prefix in taxon_name` in `rank_res`. -/
def strContains (s pat : String) : Bool :=
  (List.range (s.length + 1)).any (fun i => pat.toList.isPrefixOf (s.toList.drop i))

/-- Embeds `[x.strip() for x in taxon_name.split(';')][-1][0:3]`: the rank
prefix of the last (most specific) element of a composite taxon string. -/
def lowestRank (taxonName : String) : String :=
  ((((taxonName.splitOn ";").map String.trim)).getLastD "").take 3

/-- Embeds the per-node update loop of `rank_res`: for every rank prefix
occurring (as a substring) in the decoded taxon name, the counter keyed by
`(rank_prefix, lowest_rank)` is incremented once.  The list collects the
increments performed for one node. -/
def nodeUpdates (taxonName : String) : List (String × String) :=
  rankPrefixes.filterMap (fun rp =>
    if strContains taxonName rp then some (rp, lowestRank taxonName) else none)

/-- Embeds the singleton pass of `rank_res`: for each taxonomy-file row
(already split on tabs and `';'`), every rank position `i` whose element
equals exactly the bare rank prefix contributes one increment to the counter
keyed by `(rank_prefix, 's__')`. -/
def singletonUpdates (row : List String) : List (String × String) :=
  (rankPrefixes.enum).filterMap (fun p =>
    if row[p.1]? = some p.2 then some (p.2, "s__") else none)

/-- The counter value accumulated by the node pass of `rank_res` over the
decoded non-empty taxon names of the labeled internal non-root nodes. -/
def rankResNodes (taxonNames : List String) (key : String × String) : Nat :=
  ((taxonNames.map nodeUpdates).flatten).count key

/-- The counter value accumulated by the singleton pass of `rank_res` over
the taxonomy-file rows. -/
def rankResSingles (rows : List (List String)) (key : String × String) : Nat :=
  ((rows.map singletonUpdates).flatten).count key

/-- The final `rank_res` counter: the node pass runs first, then the
singleton pass adds to the same `defaultdict`. -/
def rankResCount (taxonNames : List String) (rows : List (List String))
    (key : String × String) : Nat :=
  (((taxonNames.map nodeUpdates).flatten) ++ ((rows.map singletonUpdates).flatten)).count key

/-- C6: for a labeled internal non-root node with a non-empty decoded taxon
name, the lowest named rank is the first three characters of the stripped
last (most specific) `';'`-separated element, and the node contributes
exactly one increment to the counter `(rank_prefix, lowest_rank)` for every
rank prefix of the schema occurring in the taxon name; node contributions
accumulate additively across nodes. -/
theorem rank_res_node_resolution (taxonName : String) (hne : taxonName ≠ "") :
    (∀ rp lr : String, (rp, lr) ∈ nodeUpdates taxonName ↔
      (rp ∈ rankPrefixes ∧ strContains taxonName rp = true ∧
        lr = (((taxonName.splitOn ";").map String.trim).getLastD "").take 3)) ∧
    (∀ (rest : List String) (key : String × String),
      rankResNodes (taxonName :: rest) key =
        (nodeUpdates taxonName).count key + rankResNodes rest key) := by
  constructor
  · intro rp lr
    simp only [nodeUpdates, List.mem_filterMap]
    constructor
    · rintro ⟨a, ha, hf⟩
      split at hf
      · rename_i hc
        cases hf
        exact ⟨ha, hc, rfl⟩
      · cases hf
    · rintro ⟨hmem, hc, hlr⟩
      exact ⟨rp, hmem, by rw [if_pos hc, hlr]; rfl⟩
  · intro rest key
    simp [rankResNodes, List.count_append]

/-- C6 witness: the theorem applied to the concrete non-empty taxon name
`d__Bacteria; p__Firmicutes`, instantiated at the counter key
`("p__", "p__")` and at a singleton node list. -/
theorem rank_res_node_resolution_witness :
    ("d__Bacteria; p__Firmicutes" ≠ "") ∧
    (("p__", "p__") ∈ nodeUpdates "d__Bacteria; p__Firmicutes" ↔
      ("p__" ∈ rankPrefixes ∧
        strContains "d__Bacteria; p__Firmicutes" "p__" = true ∧
        "p__" = ((("d__Bacteria; p__Firmicutes".splitOn ";").map
          String.trim).getLastD "").take 3)) ∧
    rankResNodes ["d__Bacteria; p__Firmicutes"] ("p__", "p__") =
      (nodeUpdates "d__Bacteria; p__Firmicutes").count ("p__", "p__") +
        rankResNodes [] ("p__", "p__") :=
  ⟨by decide,
   (rank_res_node_resolution "d__Bacteria; p__Firmicutes" (by decide)).1 "p__" "p__",
   (rank_res_node_resolution "d__Bacteria; p__Firmicutes" (by decide)).2 [] ("p__", "p__")⟩

/-- C10: a taxonomy-file row whose lineage element at rank position `i`
equals exactly the bare rank prefix (e.g. `p__` with no name) is counted as
having species-level (`s__`) resolution at that rank, and these singleton
counts add to the counts derived from labeled tree nodes. -/
theorem rank_res_singleton_species (row : List String)
    (hlen : rankPrefixes.length ≤ row.length) :
    (∀ (i : Nat) (rp : String), rankPrefixes[i]? = some rp →
      ((rp, "s__") ∈ singletonUpdates row ↔ row[i]? = some rp)) ∧
    (∀ (taxonNames : List String) (rows : List (List String))
        (key : String × String),
      rankResCount taxonNames (row :: rows) key =
        rankResNodes taxonNames key +
          ((singletonUpdates row).count key + rankResSingles rows key)) := by
  constructor
  · intro i rp hi
    simp only [singletonUpdates, List.mem_filterMap]
    constructor
    · rintro ⟨⟨j, a⟩, hp, hf⟩
      split at hf
      · rename_i hrow
        cases hf
        have hj : rankPrefixes[j]? = some a := List.mk_mem_enum_iff_getElem?.mp hp
        have hjlen : j < rankPrefixes.length := (List.getElem?_eq_some.mp hj).1
        have hnodup : rankPrefixes.Nodup := by decide
        have hij : j = i := List.getElem?_inj hjlen hnodup (by rw [hj, hi])
        rw [← hij]
        exact hrow
      · cases hf
    · intro hrow
      refine ⟨(i, rp), List.mk_mem_enum_iff_getElem?.mpr hi, ?_⟩
      rw [if_pos hrow]
  · intro taxonNames rows key
    simp [rankResCount, rankResNodes, rankResSingles, List.count_append]

/-- A concrete taxonomy row, bare at the phylum position. -/
def rowSingle : List String :=
  ["d__Bacteria", "p__", "c__C", "o__O", "f__F", "g__G", "s__S"]

/-- C10 witness: on the concrete row `rowSingle`, bare `p__` at position 1
yields the increment `("p__", "s__")`, and the combined counter decomposes
into node-pass plus singleton-pass contributions. -/
theorem rank_res_singleton_species_witness :
    rankPrefixes.length ≤ rowSingle.length ∧
    (("p__", "s__") ∈ singletonUpdates rowSingle ↔ rowSingle[1]? = some "p__") ∧
    rankResCount [] [rowSingle] ("p__", "s__") =
      rankResNodes [] ("p__", "s__") +
        ((singletonUpdates rowSingle).count ("p__", "s__") +
          rankResSingles [] ("p__", "s__")) :=
  ⟨by decide,
   (rank_res_singleton_species rowSingle (by decide)).1 1 "p__" (by decide),
   (rank_res_singleton_species rowSingle (by decide)).2 [] [] ("p__", "s__")⟩

/-! ### C4: the RED engine

`rel_dist.py` (the `RelativeDistance` class invoked by several commands) is
code of this repository that is not under the available sources, so the RED
computation is modelled from the specification (section 4.2): RED(root) = 0,
and for every other node
`RED = RED(parent) + bl/(bl + meanDistToLeaves) * (1 - RED(parent))`,
with the fraction defined as 0 when both the branch length and the subtree
mean are zero.  Arithmetic is over `ℚ`. -/

/-- Modelled from the spec: a rooted tree with a branch length at every node
and an ordered collection of children; a leaf is a node with no children. -/
inductive PTree where
  | node (bl : ℚ) (children : List PTree)
deriving Repr

/-- The branch length of a node. -/
def PTree.bl : PTree → ℚ
  | .node b _ => b

mutual
/-- The number of descendant leaves of a node (a leaf counts itself). -/
def numLeaves : PTree → Nat
  | .node _ [] => 1
  | .node _ (c :: cs) => numLeavesAux (c :: cs)
/-- Total leaf count over a list of sibling subtrees. -/
def numLeavesAux : List PTree → Nat
  | [] => 0
  | c :: cs => numLeaves c + numLeavesAux cs
end

mutual
/-- The sum, over the descendant leaves of a node, of the branch-length
distance from the node down to each leaf (the node's own branch length is
not included); 0 for a leaf. -/
def sumLeafDist : PTree → ℚ
  | .node _ cs => sumLeafDistAux cs
/-- Summed leaf distances over a list of sibling subtrees, each child
contributing its branch length once per descendant leaf. -/
def sumLeafDistAux : List PTree → ℚ
  | [] => 0
  | c :: cs => (c.bl * (numLeaves c : ℚ) + sumLeafDist c) + sumLeafDistAux cs
end

/-- Modelled from the spec: the mean branch length from a node to its
descendant leaves, computed bottom-up; a leaf with no descendants uses 0. -/
def meanDist (t : PTree) : ℚ :=
  sumLeafDist t / (numLeaves t : ℚ)

/-- Modelled from the spec: one step of the top-down RED pass.  `p` is the
parent's RED; the result is `p + bl/(bl + m) * (1 - p)`, with the fraction
defined as 0 (so the node inherits `p`) when `bl + m = 0`. -/
def redStep (p bl m : ℚ) : ℚ :=
  if bl + m = 0 then p else p + bl / (bl + m) * (1 - p)

/-- A tree annotated with the computed RED value at every node. -/
inductive RTree where
  | node (red : ℚ) (children : List RTree)
deriving Repr

/-- The RED value attached to a node. -/
def RTree.red : RTree → ℚ
  | .node r _ => r

mutual
/-- The pre-order RED pass below the root: given the parent's RED `p`,
annotate a subtree. -/
def assignRed : ℚ → PTree → RTree
  | p, .node bl cs =>
    RTree.node (redStep p bl (meanDist (.node bl cs)))
      (assignRedAux (redStep p bl (meanDist (.node bl cs))) cs)
/-- The RED pass over a list of sibling subtrees, all with parent RED `p`. -/
def assignRedAux : ℚ → List PTree → List RTree
  | _, [] => []
  | p, c :: cs => assignRed p c :: assignRedAux p cs
end

/-- The full RED computation: the root is assigned RED 0 and every other
node is computed top-down by `redStep`. -/
def redRoot : PTree → RTree
  | .node _ cs => RTree.node 0 (assignRedAux 0 cs)

mutual
/-- All branch lengths in the tree are non-negative. -/
def NonnegBL : PTree → Prop
  | .node bl cs => 0 ≤ bl ∧ NonnegBLAux cs
/-- `NonnegBL` over a list of sibling subtrees. -/
def NonnegBLAux : List PTree → Prop
  | [] => True
  | c :: cs => NonnegBL c ∧ NonnegBLAux cs
end

mutual
/-- The RED values along every root-to-leaf path of an annotated tree are
non-decreasing, starting at least at `lo`, and never exceed 1. -/
def RedChain : ℚ → RTree → Prop
  | lo, .node r cs => (lo ≤ r ∧ r ≤ 1) ∧ RedChainAux r cs
/-- `RedChain` over a list of sibling subtrees. -/
def RedChainAux : ℚ → List RTree → Prop
  | _, [] => True
  | lo, c :: cs => RedChain lo c ∧ RedChainAux lo cs
end

mutual
/-- The RED values at the leaves of an annotated tree. -/
def leafReds : RTree → List ℚ
  | .node r [] => [r]
  | .node _ (c :: cs) => leafRedsAux (c :: cs)
/-- `leafReds` over a list of sibling subtrees. -/
def leafRedsAux : List RTree → List ℚ
  | [] => []
  | c :: cs => leafReds c ++ leafRedsAux cs
end

/-- Every node has at least one descendant leaf. -/
theorem numLeaves_pos : ∀ t : PTree, 1 ≤ numLeaves t
  | .node _ [] => le_refl 1
  | .node bl (c :: cs) => by
      have h := numLeaves_pos c
      simp only [numLeaves, numLeavesAux]
      omega

mutual
/-- With non-negative branch lengths, summed leaf distances are non-negative. -/
theorem sumLeafDist_nonneg : ∀ t : PTree, NonnegBL t → 0 ≤ sumLeafDist t
  | .node bl cs, h => by
      simp only [NonnegBL] at h
      simp only [sumLeafDist]
      exact sumLeafDistAux_nonneg cs h.2
/-- List version of `sumLeafDist_nonneg`. -/
theorem sumLeafDistAux_nonneg : ∀ cs : List PTree, NonnegBLAux cs → 0 ≤ sumLeafDistAux cs
  | [], _ => le_refl 0
  | c :: cs, h => by
      simp only [NonnegBLAux] at h
      have h1 : 0 ≤ c.bl := by
        cases c with
        | node b cs2 =>
            have := h.1
            simp only [NonnegBL] at this
            exact this.1
      have h2 : 0 ≤ sumLeafDist c := sumLeafDist_nonneg c h.1
      have h3 : 0 ≤ sumLeafDistAux cs := sumLeafDistAux_nonneg cs h.2
      have h4 : (0 : ℚ) ≤ (numLeaves c : ℚ) := by positivity
      simp only [sumLeafDistAux]
      have := mul_nonneg h1 h4
      linarith
end

/-- With non-negative branch lengths, the subtree mean distance is
non-negative. -/
theorem meanDist_nonneg (t : PTree) (h : NonnegBL t) : 0 ≤ meanDist t := by
  have hn : (0 : ℚ) ≤ (numLeaves t : ℚ) := by positivity
  exact div_nonneg (sumLeafDist_nonneg t h) hn

/-- One RED step keeps the value between the parent's RED and 1. -/
theorem redStep_bounds (p bl m : ℚ) (hp0 : 0 ≤ p) (hp1 : p ≤ 1)
    (hbl : 0 ≤ bl) (hm : 0 ≤ m) :
    p ≤ redStep p bl m ∧ redStep p bl m ≤ 1 := by
  unfold redStep
  split
  · exact ⟨le_refl p, hp1⟩
  · rename_i hne
    have hpos : 0 < bl + m := lt_of_le_of_ne (add_nonneg hbl hm) (Ne.symm hne)
    have hf0 : 0 ≤ bl / (bl + m) := div_nonneg hbl hpos.le
    have hf1 : bl / (bl + m) ≤ 1 :=
      (div_le_one hpos).mpr (le_add_of_nonneg_right hm)
    constructor
    · nlinarith [mul_nonneg hf0 (sub_nonneg.mpr hp1)]
    · nlinarith [mul_nonneg (sub_nonneg.mpr hf1) (sub_nonneg.mpr hp1)]

/-- A node with branch length 0 inherits its parent's RED exactly. -/
theorem redStep_zero_bl (p m : ℚ) : redStep p 0 m = p := by
  unfold redStep
  split
  · rfl
  · simp

mutual
/-- The RED pass from a parent value in `[0,1]` over a tree with
non-negative branch lengths yields non-decreasing values bounded by 1 along
every path. -/
theorem assignRed_chain : ∀ (p : ℚ) (t : PTree), 0 ≤ p → p ≤ 1 → NonnegBL t →
    RedChain p (assignRed p t)
  | p, .node bl cs, hp0, hp1, h => by
      simp only [NonnegBL] at h
      have hm : 0 ≤ meanDist (.node bl cs) := meanDist_nonneg _ (by exact ⟨h.1, h.2⟩)
      have hb := redStep_bounds p bl (meanDist (.node bl cs)) hp0 hp1 h.1 hm
      simp only [assignRed, RedChain]
      exact ⟨hb, assignRedAux_chain _ cs (le_trans hp0 hb.1) hb.2 h.2⟩
/-- List version of `assignRed_chain`. -/
theorem assignRedAux_chain : ∀ (p : ℚ) (cs : List PTree), 0 ≤ p → p ≤ 1 →
    NonnegBLAux cs → RedChainAux p (assignRedAux p cs)
  | _, [], _, _, _ => trivial
  | p, c :: cs, hp0, hp1, h => by
      simp only [NonnegBLAux] at h
      simp only [assignRedAux, RedChainAux]
      exact ⟨assignRed_chain p c hp0 hp1 h.1, assignRedAux_chain p cs hp0 hp1 h.2⟩
end

mutual
/-- Every leaf RED value of a chained tree lies in `[0,1]`. -/
theorem chain_leafReds : ∀ (lo : ℚ) (tr : RTree), 0 ≤ lo → RedChain lo tr →
    ∀ r ∈ leafReds tr, 0 ≤ r ∧ r ≤ 1
  | lo, .node r [], hlo, hch => by
      simp only [RedChain] at hch
      intro x hx
      simp only [leafReds, List.mem_singleton] at hx
      subst hx
      exact ⟨le_trans hlo hch.1.1, hch.1.2⟩
  | lo, .node r (c :: cs), hlo, hch => by
      simp only [RedChain] at hch
      simp only [leafReds]
      exact chain_leafRedsAux r (c :: cs) (le_trans hlo hch.1.1) hch.2
/-- List version of `chain_leafReds`. -/
theorem chain_leafRedsAux : ∀ (lo : ℚ) (crs : List RTree), 0 ≤ lo →
    RedChainAux lo crs → ∀ r ∈ leafRedsAux crs, 0 ≤ r ∧ r ≤ 1
  | _, [], _, _ => by
      intro r hr
      simp only [leafRedsAux, List.not_mem_nil] at hr
  | lo, c :: cs, hlo, hch => by
      simp only [RedChainAux] at hch
      intro r hr
      simp only [leafRedsAux, List.mem_append] at hr
      rcases hr with h | h
      · exact chain_leafReds lo c hlo hch.1 r h
      · exact chain_leafRedsAux lo cs hlo hch.2 r h
end

/-- C4: for every tree with non-negative branch lengths, the RED engine
assigns RED(root) = 0, RED values are non-decreasing (and bounded by 1) along
every root-to-leaf path, every leaf RED value lies in `[0,1]`, and a node
with branch length 0 receives exactly its parent's RED value. -/
theorem red_invariants (t : PTree) (h : NonnegBL t) :
    RTree.red (redRoot t) = 0 ∧
    RedChain 0 (redRoot t) ∧
    (∀ r ∈ leafReds (redRoot t), 0 ≤ r ∧ r ≤ 1) ∧
    (∀ (p : ℚ) (cs : List PTree), RTree.red (assignRed p (.node 0 cs)) = p) := by
  cases t with
  | node bl cs =>
      simp only [NonnegBL] at h
      have hchain : RedChain 0 (redRoot (.node bl cs)) := by
        simp only [redRoot, RedChain]
        exact ⟨⟨le_refl 0, zero_le_one⟩,
          assignRedAux_chain 0 cs (le_refl 0) zero_le_one h.2⟩
      refine ⟨rfl, hchain, chain_leafReds 0 _ (le_refl 0) hchain, ?_⟩
      intro p cs2
      simp only [assignRed, RTree.red, redStep_zero_bl]

/-- The concrete 3-leaf tree of the spec scenario: a zero-length root with a
zero-length internal node over two leaves of branch length 1, and a third
leaf of branch length 1. -/
def treeRED : PTree :=
  .node 0 [.node 0 [.node 1 [], .node 1 []], .node 1 []]

/-- C4 witness: the RED invariants instantiated on the concrete tree
`treeRED`, whose branch lengths are all non-negative. -/
theorem red_invariants_witness :
    NonnegBL treeRED ∧
    (RTree.red (redRoot treeRED) = 0 ∧
     RedChain 0 (redRoot treeRED) ∧
     (∀ r ∈ leafReds (redRoot treeRED), 0 ≤ r ∧ r ≤ 1) ∧
     (∀ (p : ℚ) (cs : List PTree), RTree.red (assignRed p (.node 0 cs)) = p)) :=
  ⟨by norm_num [treeRED, NonnegBL, NonnegBLAux],
   red_invariants treeRED (by norm_num [treeRED, NonnegBL, NonnegBLAux])⟩
